import Mathlib

/-!
Shallow embedding of the text-analytics core of the legis-sentiment-spark
repository: the stance classifier (`SentimentAnalysis`), the tokenizer and
word-frequency ranker (`WordCloud`), and the corpus summarizer
(`SummaryGeneration`).  JavaScript numbers are modelled as exact rationals
(`ℚ`); the one arithmetic operation that can produce `NaN` in the source
(the `0/0` division in the word-cloud size scaling) is modelled with
`Option`, `none` standing for `NaN`.  `Math.random()` is modelled as an
explicit oracle parameter.  All inputs of interest are ASCII, for which
Lean's `Char.toLower`, `Char.isAlpha`, `Char.isDigit` agree with the
JavaScript operations used by the source.
-/

namespace LegisSentiment

/-! ### JavaScript string primitives -/

/-- `String.prototype.toLowerCase` restricted to ASCII. -/
def jsLower (s : String) : String :=
  ⟨s.data.map Char.toLower⟩

/-- `needle` is a prefix of `hay` (character lists). -/
def leadsChars : List Char → List Char → Bool
  | [], _ => true
  | _ :: _, [] => false
  | a :: as, b :: bs => a == b && leadsChars as bs

/-- `needle` occurs as a contiguous subsequence of `hay` (character lists). -/
def hasSubChars (needle : List Char) : List Char → Bool
  | [] => needle.isEmpty
  | c :: t => leadsChars needle (c :: t) || hasSubChars needle t

/-- `hay.includes(needle)` of JavaScript. -/
def jsIncludes (hay needle : String) : Bool :=
  hasSubChars needle.data hay.data

/-! ### Stance classifier (`SentimentAnalysis`)

The repository contains three copies of the identical keyword classifier,
two labelled `agreement`/`removal`/`modification` and one labelled
`positive`/`negative`/`neutral`; per the spec they are one algorithm under
two labelings, embedded once here with the agreement/removal labels. -/

def positiveWords : List String :=
  ["support", "excellent", "good", "positive", "appreciate", "well",
   "strengthen", "improve", "comprehensive"]

def negativeWords : List String :=
  ["concern", "poor", "harm", "restrict", "serious", "drive away",
   "burden", "against"]

inductive Stance where
  | agreement
  | removal
  | modification
deriving DecidableEq

structure SentimentResult where
  comment : String
  sentiment : Stance
  confidence : ℚ
deriving DecidableEq

/-- `positiveWords.filter(word => lowerComment.includes(word)).length`. -/
def positiveMatches (comment : String) : ℕ :=
  (positiveWords.filter (fun w => jsIncludes (jsLower comment) w)).length

/-- `negativeWords.filter(word => lowerComment.includes(word)).length`. -/
def negativeMatches (comment : String) : ℕ :=
  (negativeWords.filter (fun w => jsIncludes (jsLower comment) w)).length

/-- `Math.min` on two (non-NaN) numbers. -/
def jsMin (a b : ℚ) : ℚ :=
  if a ≤ b then a else b

/-- One comment's classification.  `r` is the value returned by
`Math.random()` on the (only) call made in the tie branch. -/
def classify (r : ℚ) (comment : String) : SentimentResult :=
  let p := positiveMatches comment
  let n := negativeMatches comment
  if p > n then
    ⟨comment, Stance.agreement, jsMin 0.95 (0.6 + (p : ℚ) * 0.1)⟩
  else if n > p then
    ⟨comment, Stance.removal, jsMin 0.95 (0.6 + (n : ℚ) * 0.1)⟩
  else
    ⟨comment, Stance.modification, 0.7 + r * 0.2⟩

/-- `comments.map((comment, index) => ...)`, unrolled with the running index
made explicit; `rand i` is the `Math.random()` draw consumed by comment
number `i` (when its tie branch is taken). -/
def sentimentResultsFrom (rand : ℕ → ℚ) (i : ℕ) : List String → List SentimentResult
  | [] => []
  | c :: rest => classify (rand i) c :: sentimentResultsFrom rand (i + 1) rest

/-- The full classification pass `comments.map((comment, index) => ...)`. -/
def sentimentResults (rand : ℕ → ℚ) (comments : List String) : List SentimentResult :=
  sentimentResultsFrom rand 0 comments

/-! ### Tokenizer and frequency ranker (`WordCloud`) -/

/-- The stop-word set of the source, transcribed verbatim (the source stores
it in a `Set`, so the duplicate entries are harmless; membership is all that
is ever asked of it). -/
def stopWords : List String :=
  ["the", "a", "an", "and", "or", "but", "in", "on", "at", "to", "for", "of", "with",
   "by", "is", "are", "was", "were", "be", "been", "have", "has", "had", "do", "does",
   "did", "will", "would", "could", "should", "may", "might", "must", "can", "this",
   "that", "these", "those", "i", "you", "he", "she", "it", "we", "they", "me", "him",
   "her", "us", "them", "my", "your", "his", "its", "our", "their", "as", "if", "than",
   "so", "very", "just", "now", "then", "here", "there", "when", "where", "why", "how",
   "all", "any", "both", "each", "few", "more", "most", "other", "some", "such", "no",
   "nor", "not", "only", "own", "same", "so", "than", "too", "very", "s", "t", "can",
   "don", "should", "ve", "ll", "d", "m", "re", "also", "like", "get", "go", "one",
   "two", "first", "last", "new", "old", "good", "bad", "big", "small", "long", "short",
   "high", "low", "right", "left", "next", "previous", "said", "say", "come", "came",
   "give", "take", "make", "know", "think", "see", "look", "want", "use", "find",
   "tell", "ask", "seem", "feel", "try", "leave", "call", "back", "way", "even",
   "well", "still", "however", "therefore", "thus", "hence", "accordingly", "consequently",
   "provision", "section", "clause", "draft", "amendment", "legislation", "act", "rule",
   "regulation", "ministry", "department", "government", "india", "indian", "public",
   "consultation", "comment", "suggestion", "proposal", "recommendation", "request",
   "regarding", "concerning", "respect", "matter", "issue", "subject", "mentioned",
   "stated", "provided", "specified", "considered", "proposed", "suggested", "requested"]

/-- A nonempty run of ASCII digits: the regex `^\d+$`. -/
def allDigits (l : List Char) : Bool :=
  !l.isEmpty && l.all Char.isDigit

/-- The regex `^(19|20)\d{2}$`. -/
def yearLike : List Char → Bool
  | [a, b, c, d] =>
    ((a == '1' && b == '9') || (a == '2' && b == '0')) && c.isDigit && d.isDigit
  | _ => false

/-- A date separator: the character class `[\/\-]`. -/
def dateSep (c : Char) : Bool :=
  c == '/' || c == '-'

/-- The anchored regex `^\d{1,2}[\/\-]\d{1,2}[\/\-]\d{2,4}$`, expressed as an
explicit search over the finitely many admissible segment lengths (for a
fully anchored regex this is exactly the backtracking semantics). -/
def dateLike (l : List Char) : Bool :=
  [1, 2].any fun i => [1, 2].any fun j => [2, 3, 4].any fun k =>
    decide (l.length = i + j + k + 2) &&
    allDigits (l.take i) &&
    (match l.drop i with | s :: _ => dateSep s | [] => false) &&
    allDigits ((l.drop (i + 1)).take j) &&
    (match l.drop (i + 1 + j) with | s :: _ => dateSep s | [] => false) &&
    allDigits (l.drop (i + 1 + j + 1))

/-- `word.length > 2 && /\d/.test(word) && word.replace(/\d/g, '').length < 2`. -/
def mostlyDigits (l : List Char) : Bool :=
  decide (l.length > 2) && l.any Char.isDigit &&
    decide ((l.filter (fun c => !c.isDigit)).length < 2)

/-- `isNumericOrDate` of the source. -/
def isNumericOrDate (w : String) : Bool :=
  allDigits w.data || yearLike w.data || dateLike w.data || mostlyDigits w.data

/-- The regex `^[a-zA-Z]+$`. -/
def allAlpha (l : List Char) : Bool :=
  !l.isEmpty && l.all Char.isAlpha

/-- The bare suffix fragments rejected by the tokenizer. -/
def suffixFragments : List String :=
  ["ing", "ion", "tion", "ness", "ment", "able", "ible", "ful", "less"]

/-- `isMeaningfulWord` of the source, with its checks in source order. -/
def isMeaningfulWord (w : String) : Bool :=
  if w.length < 3 then false
  else if stopWords.contains w then false
  else if isNumericOrDate w then false
  else if !allAlpha w.data then false
  else if suffixFragments.contains w then false
  else true

/-- A `\w` word character of JavaScript: letter, digit or underscore. -/
def isWordChar (c : Char) : Bool :=
  c.isAlpha || c.isDigit || c == '_'

/-- A `\s` whitespace character of JavaScript (ASCII part). -/
def jsSpace (c : Char) : Bool :=
  c == ' ' || c == '\t' || c == '\n' || c == '\r' || c == '\x0B' || c == '\x0C'

/-- `.replace(/[^\w\s]/g, ' ')`: every character that is neither a word
character nor whitespace becomes a single space. -/
def replaceNonWordChars (l : List Char) : List Char :=
  l.map fun c => if isWordChar c || jsSpace c then c else ' '

/-- Splitting on runs of whitespace (`.split(/\s+/)`), keeping the maximal
nonempty runs of non-whitespace characters.  (JavaScript's `split` can also
emit an empty fragment at either end; such fragments fail every length
filter applied downstream, so they are dropped here once and for all.) -/
def splitWsAux : List Char → List Char → List (List Char)
  | acc, [] => if acc.isEmpty then [] else [acc.reverse]
  | acc, c :: t =>
    if jsSpace c then
      if acc.isEmpty then splitWsAux [] t else acc.reverse :: splitWsAux [] t
    else
      splitWsAux (c :: acc) t

def splitWs (l : List Char) : List (List Char) :=
  splitWsAux [] l

/-- `comments.join(' ').toLowerCase()`. -/
def allText (comments : List String) : String :=
  jsLower (String.intercalate " " comments)

/-- The candidate tokens: the whitespace-separated runs of the lowercased,
punctuation-replaced corpus, before the `isMeaningfulWord` filter. -/
def candidateWords (comments : List String) : List String :=
  (splitWs (replaceNonWordChars (allText comments).data)).map fun l => (⟨l⟩ : String)

/-- `words` of the source: the candidate tokens that pass the filter. -/
def words (comments : List String) : List String :=
  (candidateWords comments).filter isMeaningfulWord

/-- One step of `words.reduce((acc, word) => ...)`: bump the count of `w` in
an insertion-ordered association list (JavaScript object keys made of
letters keep insertion order, so an ordered association list models
`Record<string, number>` exactly). -/
def bump (w : String) : List (String × ℕ) → List (String × ℕ)
  | [] => [(w, 1)]
  | p :: t => if p.1 == w then (p.1, p.2 + 1) :: t else p :: bump w t

/-- `wordCount` of the source. -/
def wordCount (ws : List String) : List (String × ℕ) :=
  ws.foldl (fun acc w => bump w acc) []

/-- Descending-by-count order used by `.sort(([, a], [, b]) => b - a)`. -/
def freqGe (a b : String × ℕ) : Prop :=
  b.2 ≤ a.2

instance : DecidableRel freqGe := fun a b => Nat.decLe b.2 a.2

instance : IsTotal (String × ℕ) freqGe :=
  ⟨fun a b => le_total b.2 a.2⟩

instance : IsTrans (String × ℕ) freqGe :=
  ⟨fun _ _ _ h1 h2 => le_trans h2 h1⟩

/-- `sortedWords` of the source:
`Object.entries(wordCount).sort(([, a], [, b]) => b - a).slice(0, 50)`.
`Array.prototype.sort` is stable, so with the comparator `b - a` it yields
the unique stable descending reordering; `List.insertionSort freqGe`
computes exactly that reordering. -/
def sortedWords (comments : List String) : List (String × ℕ) :=
  (List.insertionSort freqGe (wordCount (words comments))).take 50

/-- The JavaScript idiom `expr?.[1] || 1` applied to an optional count:
`undefined` and the (unreachable) count `0` both fall back to `1`. -/
def orOne : Option ℕ → ℕ
  | none => 1
  | some n => if n = 0 then 1 else n

/-- `const maxFreq = sortedWords[0]?.[1] || 1`. -/
def maxFreq (comments : List String) : ℕ :=
  orOne ((sortedWords comments).head?.map Prod.snd)

/-- `const minFreq = sortedWords[sortedWords.length - 1]?.[1] || 1`. -/
def minFreq (comments : List String) : ℕ :=
  orOne ((sortedWords comments).getLast?.map Prod.snd)

/-- `Math.round(12 + ((f - minF) / (maxF - minF)) * 24)`.  When
`maxF = minF` the JavaScript division is `0 / 0 = NaN`, which propagates
through `12 + NaN * 24` and `Math.round`; the `NaN` outcome is modelled as
`none`.  Otherwise `Math.round x = ⌊x + 1/2⌋`, which is Mathlib's `round`. -/
def sizeOfFreq (minF maxF f : ℕ) : Option ℤ :=
  if maxF = minF then none
  else some (round ((12 : ℚ) + ((f : ℚ) - (minF : ℚ)) / ((maxF : ℚ) - (minF : ℚ)) * 24))

structure WordFrequency where
  word : String
  frequency : ℕ
  size : Option ℤ
deriving DecidableEq

/-- `wordFrequencies` of the source `WordCloud` component. -/
def wordFrequencies (comments : List String) : List WordFrequency :=
  if comments.isEmpty then []
  else
    (sortedWords comments).map fun p =>
      ⟨p.1, p.2, sizeOfFreq (minFreq comments) (maxFreq comments) p.2⟩

/-- Number of occurrences of token `t` in the token stream of `comments`. -/
def tokenFreq (comments : List String) (t : String) : ℕ :=
  (words comments).count t

/-- Modelled from the spec (claim C2's reading of the tokenizer, not from
the source): replace every character that is not a LETTER or whitespace —
digits included — by a single space, then split on whitespace.  Defined
only to be compared against the source's `candidateWords`. -/
def specLetterCandidateWords (comments : List String) : List String :=
  (splitWs ((allText comments).data.map fun c =>
    if c.isAlpha || jsSpace c then c else ' ')).map fun l => (⟨l⟩ : String)

/-! ### Corpus summarizer (`SummaryGeneration`) -/

def positiveKeywords : List String :=
  ["support", "excellent", "good", "positive", "appreciate", "well",
   "strengthen", "improve", "comprehensive", "initiative"]

def negativeKeywords : List String :=
  ["concern", "poor", "harm", "restrict", "serious", "drive away",
   "burden", "against", "oppose", "problematic"]

def neutralKeywords : List String :=
  ["suggest", "recommend", "consider", "clarify", "modify", "reasonable", "adequate"]

/-- `positiveKeywords.some(word => lowerComment.includes(word))`. -/
def hasPositive (c : String) : Bool :=
  positiveKeywords.any fun w => jsIncludes (jsLower c) w

/-- `negativeKeywords.some(word => lowerComment.includes(word))`. -/
def hasNegative (c : String) : Bool :=
  negativeKeywords.any fun w => jsIncludes (jsLower c) w

/-- `neutralKeywords.some(word => lowerComment.includes(word))`.  Computed
by the source on every comment but never consulted by the counting
branches; kept for fidelity. -/
def hasNeutral (c : String) : Bool :=
  neutralKeywords.any fun w => jsIncludes (jsLower c) w

/-- The body of the source's `comments.forEach`, acting on the three
running counters `(positiveCount, negativeCount, neutralCount)`. -/
def tallyStep (acc : ℕ × ℕ × ℕ) (c : String) : ℕ × ℕ × ℕ :=
  if hasPositive c && !hasNegative c then (acc.1 + 1, acc.2.1, acc.2.2)
  else if hasNegative c && !hasPositive c then (acc.1, acc.2.1 + 1, acc.2.2)
  else (acc.1, acc.2.1, acc.2.2 + 1)

/-- The three counters after the whole `forEach` pass. -/
def sentimentTally (comments : List String) : ℕ × ℕ × ℕ :=
  comments.foldl tallyStep (0, 0, 0)

/-- `Set.add`: JavaScript set insertion keeps first-insertion order and
ignores duplicates, which on an ordered duplicate-free list is this. -/
def addTag (t : String) (l : List String) : List String :=
  if l.contains t then l else l ++ [t]

/-- The theme detector table of the source (trigger substrings, tag). -/
def themeRules : List (List String × String) :=
  [(["transparency", "accountability"], "Corporate Transparency & Accountability"),
   (["compliance", "regulation"], "Regulatory Compliance"),
   (["small business", "startup"], "Impact on Small Businesses"),
   (["implementation", "timeline"], "Implementation Concerns"),
   (["privacy", "data"], "Data Privacy & Security"),
   (["governance", "oversight"], "Corporate Governance")]

/-- The concern detector table of the source. -/
def concernRules : List (List String × String) :=
  [(["burden", "cost"], "Increased compliance burden and costs"),
   (["privacy", "confidential"], "Privacy and confidentiality implications"),
   (["small", "startup"], "Disproportionate impact on small businesses"),
   (["unclear", "confusing"], "Lack of clarity in implementation guidelines")]

/-- The suggestion detector table of the source. -/
def suggestionRules : List (List String × String) :=
  [(["phased", "gradual"], "Implement changes in phases"),
   (["clarify", "clearer"], "Provide clearer implementation guidelines"),
   (["exemption", "exception"], "Consider exemptions for specific business categories"),
   (["consultation", "stakeholder"], "Conduct additional stakeholder consultations")]

/-- Run one comment through a detector table, adding each triggered tag to
the accumulated set. -/
def applyRules (rules : List (List String × String)) (c : String)
    (acc : List String) : List String :=
  rules.foldl
    (fun acc2 r =>
      if r.1.any (fun trig => jsIncludes (jsLower c) trig) then addTag r.2 acc2 else acc2)
    acc

/-- Run the whole corpus through a detector table (the source's
`Set` + `Array.from`, which reads the set back in insertion order). -/
def collectTags (rules : List (List String × String)) (comments : List String) : List String :=
  comments.foldl (fun acc c => applyRules rules c acc) []

inductive Overall where
  | positive
  | negative
  | mixed
deriving DecidableEq

/-- The chained conditional computing `overallSentiment`. -/
def overallOf (p n u : ℕ) : Overall :=
  if p > n ∧ p > u then Overall.positive
  else if n > p ∧ n > u then Overall.negative
  else Overall.mixed

structure CorpusSummary where
  totalComments : ℕ
  positive : ℕ
  negative : ℕ
  neutral : ℕ
  overallSentiment : Overall
  keyThemes : List String
  mainConcerns : List String
  suggestions : List String
deriving DecidableEq

/-- `summary` of the source `SummaryGeneration` component; `none` models
the `null` returned for an empty comment list. -/
def summary (comments : List String) : Option CorpusSummary :=
  if comments.isEmpty then none
  else
    let t := sentimentTally comments
    some
      { totalComments := comments.length
        positive := t.1
        negative := t.2.1
        neutral := t.2.2
        overallSentiment := overallOf t.1 t.2.1 t.2.2
        keyThemes := collectTags themeRules comments
        mainConcerns := collectTags concernRules comments
        suggestions := collectTags suggestionRules comments }

/-! ### Auxiliary vocabulary used only by the verification layer -/

/-- The three-comment corpus of the spec's concrete scenario. -/
def scenarioComments : List String :=
  ["I strongly support this excellent amendment.",
   "This is a poor and harmful proposal that will drive away businesses.",
   "Please consider a phased rollout and clarify the timeline."]

/-- A one-comment corpus with 51 distinct retained tokens, each of
frequency one. -/
def fiftyOneTokens : List String :=
  ["zaa zab zac zad zae zaf zag zah zai zaj zak zal zam zan zao zap zaq zar zas zat zau zav zaw zax zay zaz zba zbb zbc zbd zbe zbf zbg zbh zbi zbj zbk zbl zbm zbn zbo zbp zbq zbr zbs zbt zbu zbv zbw zbx zby"]

/-- The total count an association list assigns to a key (with duplicate-free
keys this is the key's entry, or `0` when absent). -/
def keyCount (l : List (String × ℕ)) (x : String) : ℕ :=
  (l.map fun p => if x = p.1 then p.2 else 0).sum

/-- A display size that is an actual integer in the advertised `[12, 36]`
range (rather than the `NaN` modelled by `none`). -/
def sizeInRange : Option ℤ → Prop
  | none => False
  | some s => 12 ≤ s ∧ s ≤ 36

/-- Ordering on display sizes: both are numbers in the right order, or both
are the `NaN` of the uniform-frequency corpus. -/
def sizeLe : Option ℤ → Option ℤ → Prop
  | some x, some y => x ≤ y
  | none, none => True
  | _, _ => False

/-- The summary the source computes on `scenarioComments` (checked below by
evaluation). -/
def scenarioSummary : CorpusSummary :=
  ⟨3, 1, 1, 1, Overall.mixed, ["Implementation Concerns"], [],
   ["Implement changes in phases", "Provide clearer implementation guidelines"]⟩

end LegisSentiment

namespace LegisSentiment

/-! ### Association-list counting lemmas -/

lemma keyCount_nil (x : String) : keyCount [] x = 0 := rfl

lemma keyCount_eq_zero_of_not_mem {l : List (String × ℕ)} {x : String}
    (h : x ∉ l.map Prod.fst) : keyCount l x = 0 := by
  induction l with
  | nil => rfl
  | cons p t ih =>
      simp only [List.map_cons, List.mem_cons, not_or] at h
      simp [keyCount, List.map_cons, List.sum_cons, h.1]
      have := ih h.2
      simpa [keyCount] using this

lemma bump_keyCount (w x : String) (l : List (String × ℕ)) :
    keyCount (bump w l) x = keyCount l x + (if x = w then 1 else 0) := by
  induction l with
  | nil => by_cases h : x = w <;> simp [bump, keyCount, h]
  | cons p t ih =>
      by_cases hpw : p.1 == w
      · have hpw' : p.1 = w := by simpa using hpw
        by_cases hxw : x = w <;>
          (simp [bump, hpw, keyCount, hpw', hxw]; try omega)
      · simp only [bump, hpw, Bool.false_eq_true, if_false]
        by_cases hxp : x = p.1 <;>
          simp [keyCount, hxp] at ih ⊢ <;> omega

lemma keys_bump (w : String) (l : List (String × ℕ)) :
    (bump w l).map Prod.fst
      = if w ∈ l.map Prod.fst then l.map Prod.fst else l.map Prod.fst ++ [w] := by
  induction l with
  | nil => simp [bump]
  | cons p t ih =>
      by_cases hpw : p.1 == w
      · have hpw' : p.1 = w := by simpa using hpw
        simp [bump, hpw, hpw']
      · have hpw' : ¬ p.1 = w := by simpa using hpw
        have hwp : ¬ w = p.1 := fun h => hpw' h.symm
        by_cases hw : w ∈ t.map Prod.fst <;> simp [bump, hpw, ih, hw, hwp]

lemma mem_keys_bump {w x : String} {l : List (String × ℕ)} :
    x ∈ (bump w l).map Prod.fst ↔ x = w ∨ x ∈ l.map Prod.fst := by
  rw [keys_bump]
  by_cases hw : w ∈ l.map Prod.fst
  · simp only [hw, if_true]
    constructor
    · exact Or.inr
    · rintro (rfl | h)
      · exact hw
      · exact h
  · simp [hw, or_comm]

lemma nodup_keys_bump {w : String} {l : List (String × ℕ)}
    (h : (l.map Prod.fst).Nodup) : ((bump w l).map Prod.fst).Nodup := by
  rw [keys_bump]
  by_cases hw : w ∈ l.map Prod.fst
  · simpa [hw]
  · simp [hw, List.nodup_append, h]

lemma pos_bump {w : String} {l : List (String × ℕ)}
    (h : ∀ p ∈ l, 0 < p.2) : ∀ p ∈ bump w l, 0 < p.2 := by
  induction l with
  | nil =>
      intro p hp
      simp only [bump, List.mem_singleton] at hp
      simp [hp]
  | cons q t ih =>
      intro p hp
      by_cases hqw : q.1 == w
      · simp only [bump, hqw, if_true] at hp
        rcases List.mem_cons.mp hp with rfl | hp
        · have := h q (List.mem_cons_self _ _)
          exact lt_of_lt_of_le this (Nat.le_succ _)
        · exact h p (List.mem_cons_of_mem _ hp)
      · simp only [bump, hqw, Bool.false_eq_true, if_false] at hp
        rcases List.mem_cons.mp hp with rfl | hp
        · exact h p (List.mem_cons_self _ _)
        · exact ih (fun q' hq' => h q' (List.mem_cons_of_mem _ hq')) p hp

lemma entry_eq_keyCount {l : List (String × ℕ)} {x : String} {n : ℕ}
    (hnd : (l.map Prod.fst).Nodup) (hmem : (x, n) ∈ l) : n = keyCount l x := by
  induction l with
  | nil => cases hmem
  | cons p t ih =>
      simp only [List.map_cons, List.nodup_cons] at hnd
      rcases List.mem_cons.mp hmem with heq | hmem'
      · have hx : x = p.1 := by rw [← heq]
        have hn : n = p.2 := by rw [← heq]
        have hz : keyCount t x = 0 := by
          apply keyCount_eq_zero_of_not_mem
          rw [hx]; exact hnd.1
        simp [keyCount, hx, hn, hz] at *
        simpa [keyCount] using hz
      · have hx : x ≠ p.1 := by
          intro hx
          apply hnd.1
          rw [← hx]
          exact List.mem_map.mpr ⟨(x, n), hmem', rfl⟩
        have := ih hnd.2 hmem'
        simp [keyCount, hx] at this ⊢
        simpa [keyCount] using this

lemma wordCount_append (ws : List String) (w : String) :
    wordCount (ws ++ [w]) = bump w (wordCount ws) := by
  simp [wordCount, List.foldl_append]

lemma wordCount_keyCount (ws : List String) (x : String) :
    keyCount (wordCount ws) x = ws.count x := by
  induction ws using List.reverseRecOn with
  | nil => simp [wordCount, keyCount]
  | append_singleton ws w ih =>
      rw [wordCount_append, bump_keyCount, ih, List.count_append]
      by_cases h : x = w
      · subst h
        simp [List.count_cons]
      · have h0 : ([w].count x) = 0 := by
          simp [List.count_cons, Ne.symm h]
        rw [if_neg h, h0]

lemma wordCount_nodup_keys (ws : List String) :
    ((wordCount ws).map Prod.fst).Nodup := by
  induction ws using List.reverseRecOn with
  | nil => simp [wordCount]
  | append_singleton ws w ih =>
      rw [wordCount_append]
      exact nodup_keys_bump ih

lemma wordCount_pos (ws : List String) : ∀ p ∈ wordCount ws, 0 < p.2 := by
  induction ws using List.reverseRecOn with
  | nil => intro p hp; simp [wordCount] at hp
  | append_singleton ws w ih =>
      rw [wordCount_append]
      exact pos_bump ih

lemma mem_keys_wordCount (ws : List String) (x : String) :
    x ∈ (wordCount ws).map Prod.fst ↔ x ∈ ws := by
  induction ws using List.reverseRecOn with
  | nil => simp [wordCount]
  | append_singleton ws w ih =>
      rw [wordCount_append]
      rw [mem_keys_bump, ih]
      simp [List.mem_append, or_comm]

/-- The entries of `wordCount ws` are exactly the pairs
(token, its number of occurrences). -/
lemma wordCount_mem_iff (ws : List String) (x : String) (n : ℕ) :
    (x, n) ∈ wordCount ws ↔ x ∈ ws ∧ n = ws.count x := by
  constructor
  · intro hmem
    refine ⟨?_, ?_⟩
    · rw [← mem_keys_wordCount ws x]
      exact List.mem_map.mpr ⟨(x, n), hmem, rfl⟩
    · rw [← wordCount_keyCount]
      exact entry_eq_keyCount (wordCount_nodup_keys ws) hmem
  · rintro ⟨hx, rfl⟩
    have hk : x ∈ (wordCount ws).map Prod.fst := (mem_keys_wordCount ws x).mpr hx
    rcases List.mem_map.mp hk with ⟨p, hp, hpx⟩
    have : p.2 = keyCount (wordCount ws) x :=
      entry_eq_keyCount (wordCount_nodup_keys ws) (by rw [← hpx]; simpa using hp)
    rw [wordCount_keyCount] at this
    have hpx' : p = (x, ws.count x) := by
      cases p
      simp_all
    rw [← hpx']
    exact hp

/-! ### Sortedness of the ranked word list -/

lemma sortedWords_sorted (cs : List String) :
    List.Sorted freqGe (sortedWords cs) :=
  List.Pairwise.sublist (List.take_sublist _ _)
    (List.sorted_insertionSort freqGe (wordCount (words cs)))

lemma sortedWords_mem_wordCount {cs : List String} {p : String × ℕ}
    (hp : p ∈ sortedWords cs) : p ∈ wordCount (words cs) := by
  have := List.take_subset 50 (List.insertionSort freqGe (wordCount (words cs))) hp
  exact (List.mem_insertionSort freqGe).mp this

lemma sortedWords_pos {cs : List String} {p : String × ℕ}
    (hp : p ∈ sortedWords cs) : 0 < p.2 :=
  wordCount_pos (words cs) p (sortedWords_mem_wordCount hp)

/-- In a `freqGe`-sorted list the last element has the smallest count. -/
lemma sorted_getLast_le {l : List (String × ℕ)} (hs : List.Sorted freqGe l)
    (h : l ≠ []) : ∀ p ∈ l, (l.getLast h).2 ≤ p.2 := by
  induction l with
  | nil => cases h rfl
  | cons q t ih =>
      intro p hp
      cases t with
      | nil =>
          simp only [List.mem_singleton] at hp
          subst hp
          simp [List.getLast]
      | cons q' t' =>
          have hlast : (q :: q' :: t').getLast h = (q' :: t').getLast (by simp) := by
            simp [List.getLast]
          rcases List.mem_cons.mp hp with rfl | hp'
          · rw [hlast]
            have hmem := List.getLast_mem (l := q' :: t') (by simp)
            exact List.rel_of_sorted_cons hs _ hmem
          · rw [hlast]
            exact ih hs.of_cons (by simp) p hp'

lemma minFreq_le {cs : List String} {p : String × ℕ}
    (hp : p ∈ sortedWords cs) : minFreq cs ≤ p.2 := by
  have hne : sortedWords cs ≠ [] := List.ne_nil_of_mem hp
  have hlastmem := List.getLast_mem hne
  have hpos : 0 < ((sortedWords cs).getLast hne).2 := sortedWords_pos hlastmem
  have : minFreq cs = ((sortedWords cs).getLast hne).2 := by
    unfold minFreq
    rw [List.getLast?_eq_getLast _ hne]
    simp [orOne, Nat.pos_iff_ne_zero.mp hpos]
  rw [this]
  exact sorted_getLast_le (sortedWords_sorted cs) hne p hp

lemma le_maxFreq {cs : List String} {p : String × ℕ}
    (hp : p ∈ sortedWords cs) : p.2 ≤ maxFreq cs := by
  cases hsw : sortedWords cs with
  | nil => rw [hsw] at hp; cases hp
  | cons q t =>
      have hq : q ∈ sortedWords cs := by rw [hsw]; exact List.mem_cons_self _ _
      have hpos : 0 < q.2 := sortedWords_pos hq
      have hmax : maxFreq cs = q.2 := by
        unfold maxFreq
        rw [hsw]
        simp [orOne, Nat.pos_iff_ne_zero.mp hpos]
      rw [hmax]
      rw [hsw] at hp
      rcases List.mem_cons.mp hp with rfl | hp'
      · exact le_refl _
      · have hs := sortedWords_sorted cs
        rw [hsw] at hs
        exact List.rel_of_sorted_cons hs _ hp'

/-! ### Display-size arithmetic -/

lemma sizeOfFreq_of_ne {minF maxF f : ℕ} (hne : maxF ≠ minF) :
    sizeOfFreq minF maxF f
      = some (round ((12 : ℚ) + ((f : ℚ) - (minF : ℚ)) / ((maxF : ℚ) - (minF : ℚ)) * 24)) := by
  simp [sizeOfFreq, hne]

lemma sizeOfFreq_of_eq {minF maxF f : ℕ} (heq : maxF = minF) :
    sizeOfFreq minF maxF f = none := by
  simp [sizeOfFreq, heq]

lemma sizeOfFreq_inRange {minF maxF f : ℕ} (hne : maxF ≠ minF)
    (h1 : minF ≤ f) (h2 : f ≤ maxF) : sizeInRange (sizeOfFreq minF maxF f) := by
  have hlt : minF < maxF := lt_of_le_of_ne (le_trans h1 h2) (Ne.symm hne)
  have hd : (0 : ℚ) < (maxF : ℚ) - (minF : ℚ) := by
    have : (minF : ℚ) < (maxF : ℚ) := by exact_mod_cast hlt
    linarith
  have hf1 : (minF : ℚ) ≤ (f : ℚ) := by exact_mod_cast h1
  have hf2 : (f : ℚ) ≤ (maxF : ℚ) := by exact_mod_cast h2
  have hq0 : 0 ≤ ((f : ℚ) - (minF : ℚ)) / ((maxF : ℚ) - (minF : ℚ)) :=
    div_nonneg (by linarith) (le_of_lt hd)
  have hq1 : ((f : ℚ) - (minF : ℚ)) / ((maxF : ℚ) - (minF : ℚ)) ≤ 1 := by
    rw [div_le_one hd]
    linarith
  rw [sizeOfFreq_of_ne hne]
  simp only [sizeInRange]
  constructor
  · rw [round_eq, Int.le_floor]
    push_cast
    nlinarith
  · rw [round_eq, Int.floor_le_iff]
    push_cast
    nlinarith

lemma sizeOfFreq_mono {minF maxF f g : ℕ} (hlt : minF < maxF) (hgf : g ≤ f) :
    sizeLe (sizeOfFreq minF maxF g) (sizeOfFreq minF maxF f) := by
  have hne : maxF ≠ minF := Nat.ne_of_gt hlt
  have hd : (0 : ℚ) < (maxF : ℚ) - (minF : ℚ) := by
    have : (minF : ℚ) < (maxF : ℚ) := by exact_mod_cast hlt
    linarith
  rw [sizeOfFreq_of_ne hne, sizeOfFreq_of_ne hne]
  simp only [sizeLe]
  rw [round_eq, round_eq]
  apply Int.floor_mono
  have hgf' : (g : ℚ) ≤ (f : ℚ) := by exact_mod_cast hgf
  have hdiv : ((g : ℚ) - (minF : ℚ)) / ((maxF : ℚ) - (minF : ℚ))
      ≤ ((f : ℚ) - (minF : ℚ)) / ((maxF : ℚ) - (minF : ℚ)) := by
    exact div_le_div_of_nonneg_right (by linarith) (le_of_lt hd)
  nlinarith

/-! ### Classifier branch lemmas -/

lemma classify_agreement {r : ℚ} {c : String}
    (h : negativeMatches c < positiveMatches c) :
    classify r c
      = ⟨c, Stance.agreement, jsMin 0.95 (0.6 + (positiveMatches c : ℚ) * 0.1)⟩ := by
  unfold classify
  rw [if_pos h]

lemma classify_removal {r : ℚ} {c : String}
    (h : positiveMatches c < negativeMatches c) :
    classify r c
      = ⟨c, Stance.removal, jsMin 0.95 (0.6 + (negativeMatches c : ℚ) * 0.1)⟩ := by
  unfold classify
  rw [if_neg (by omega), if_pos h]

lemma classify_modification {r : ℚ} {c : String}
    (h : positiveMatches c = negativeMatches c) :
    classify r c = ⟨c, Stance.modification, 0.7 + r * 0.2⟩ := by
  unfold classify
  rw [if_neg (by omega), if_neg (by omega)]

lemma jsMin_eq_min (a b : ℚ) : jsMin a b = min a b := by
  unfold jsMin
  rw [min_def]

/-! ### Tally lemmas -/

lemma foldl_tallyStep_sum (cs : List String) : ∀ acc : ℕ × ℕ × ℕ,
    (cs.foldl tallyStep acc).1 + (cs.foldl tallyStep acc).2.1 + (cs.foldl tallyStep acc).2.2
      = acc.1 + acc.2.1 + acc.2.2 + cs.length := by
  induction cs with
  | nil => intro acc; simp
  | cons c t ih =>
      intro acc
      rw [List.foldl_cons, ih (tallyStep acc c)]
      have hstep : (tallyStep acc c).1 + (tallyStep acc c).2.1 + (tallyStep acc c).2.2
          = acc.1 + acc.2.1 + acc.2.2 + 1 := by
        unfold tallyStep
        split_ifs <;> simp <;> omega
      rw [hstep]
      simp only [List.length_cons]
      omega

lemma sentimentTally_sum (cs : List String) :
    (sentimentTally cs).1 + (sentimentTally cs).2.1 + (sentimentTally cs).2.2 = cs.length := by
  have := foldl_tallyStep_sum cs (0, 0, 0)
  simpa [sentimentTally] using this

lemma foldl_tallyStep_filter (cs : List String) : ∀ acc : ℕ × ℕ × ℕ,
    cs.foldl tallyStep acc
      = (acc.1 + (cs.filter fun c => hasPositive c && !hasNegative c).length,
         acc.2.1 + (cs.filter fun c => hasNegative c && !hasPositive c).length,
         acc.2.2 + (cs.filter fun c =>
           !(hasPositive c && !hasNegative c) && !(hasNegative c && !hasPositive c)).length) := by
  induction cs with
  | nil => intro acc; simp
  | cons c t ih =>
      intro acc
      rw [List.foldl_cons, ih (tallyStep acc c)]
      cases hp : hasPositive c <;> cases hn : hasNegative c <;>
        simp [tallyStep, hp, hn, List.filter_cons, Prod.ext_iff] <;> omega

lemma sentimentTally_eq_filter (cs : List String) :
    sentimentTally cs
      = ((cs.filter fun c => hasPositive c && !hasNegative c).length,
         (cs.filter fun c => hasNegative c && !hasPositive c).length,
         (cs.filter fun c =>
           !(hasPositive c && !hasNegative c) && !(hasNegative c && !hasPositive c)).length) := by
  have := foldl_tallyStep_filter cs (0, 0, 0)
  simpa [sentimentTally] using this

/-! ### Overall-sentiment characterization -/

lemma overallOf_positive_iff (p n u : ℕ) :
    overallOf p n u = Overall.positive ↔ n < p ∧ u < p := by
  unfold overallOf
  split_ifs with h1 h2
  · exact ⟨fun _ => h1, fun _ => rfl⟩
  · constructor
    · intro h
      exact absurd h (by decide)
    · intro hc
      exact absurd hc h1
  · constructor
    · intro h
      exact absurd h (by decide)
    · intro hc
      exact absurd hc h1

lemma overallOf_negative_iff (p n u : ℕ) :
    overallOf p n u = Overall.negative ↔ p < n ∧ u < n := by
  unfold overallOf
  split_ifs with h1 h2
  · constructor
    · intro h
      exact absurd h (by decide)
    · intro hc
      exact absurd hc.1 (by omega)
  · exact ⟨fun _ => h2, fun _ => rfl⟩
  · constructor
    · intro h
      exact absurd h (by decide)
    · intro hc
      exact absurd hc h2

lemma overallOf_mixed_iff (p n u : ℕ) :
    overallOf p n u = Overall.mixed ↔ ¬(n < p ∧ u < p) ∧ ¬(p < n ∧ u < n) := by
  unfold overallOf
  split_ifs with h1 h2
  · constructor
    · intro h
      exact absurd h (by decide)
    · intro hc
      exact absurd h1 hc.1
  · constructor
    · intro h
      exact absurd h (by decide)
    · intro hc
      exact absurd h2 hc.2
  · exact ⟨fun _ => ⟨h1, h2⟩, fun _ => rfl⟩

/-! ### Tokenizer structural lemmas -/

lemma splitWsAux_mem (l : List Char) : ∀ (acc : List Char),
    (∀ c ∈ acc, jsSpace c = false) →
    ∀ r ∈ splitWsAux acc l, r ≠ [] ∧ ∀ c ∈ r, jsSpace c = false := by
  induction l with
  | nil =>
      intro acc hacc r hr
      unfold splitWsAux at hr
      by_cases ha : acc.isEmpty
      · rw [if_pos ha] at hr
        cases hr
      · rw [if_neg ha] at hr
        rcases List.mem_singleton.mp hr with rfl
        refine ⟨?_, ?_⟩
        · intro h
          apply ha
          rw [List.isEmpty_iff]
          simpa using List.reverse_eq_nil_iff.mp h
        · intro c hc
          exact hacc c (List.mem_reverse.mp hc)
  | cons c t ih =>
      intro acc hacc r hr
      unfold splitWsAux at hr
      by_cases hc : jsSpace c
      · rw [if_pos hc] at hr
        by_cases ha : acc.isEmpty
        · rw [if_pos ha] at hr
          exact ih [] (by intro x hx; cases hx) r hr
        · rw [if_neg ha] at hr
          rcases List.mem_cons.mp hr with rfl | hr'
          · refine ⟨?_, ?_⟩
            · intro h
              apply ha
              rw [List.isEmpty_iff]
              simpa using List.reverse_eq_nil_iff.mp h
            · intro x hx
              exact hacc x (List.mem_reverse.mp hx)
          · exact ih [] (by intro x hx; cases hx) r hr'
      · rw [if_neg hc] at hr
        refine ih (c :: acc) ?_ r hr
        intro x hx
        rcases List.mem_cons.mp hx with rfl | hx'
        · simpa using hc
        · exact hacc x hx'

lemma splitWs_mem {l : List Char} {r : List Char} (hr : r ∈ splitWs l) :
    r ≠ [] ∧ ∀ c ∈ r, jsSpace c = false :=
  splitWsAux_mem l [] (by intro x hx; cases hx) r hr

lemma replaceNonWordChars_mem {l : List Char} {c : Char}
    (hc : c ∈ replaceNonWordChars l) (hns : jsSpace c = false) :
    isWordChar c = true := by
  unfold replaceNonWordChars at hc
  rcases List.mem_map.mp hc with ⟨c0, _, hco⟩
  by_cases h : isWordChar c0 || jsSpace c0
  · rw [if_pos h] at hco
    subst hco
    rcases Bool.or_eq_true_iff.mp h with hw | hs
    · exact hw
    · rw [hs] at hns
      cases hns
  · rw [if_neg h] at hco
    subst hco
    have : jsSpace ' ' = true := by decide
    rw [this] at hns
    cases hns

/-- Every member of `splitWs l` is made of characters of `l`. -/
lemma splitWsAux_chars (l : List Char) : ∀ (acc : List Char),
    ∀ r ∈ splitWsAux acc l, ∀ c ∈ r, c ∈ acc ∨ c ∈ l := by
  induction l with
  | nil =>
      intro acc r hr c hcr
      unfold splitWsAux at hr
      by_cases ha : acc.isEmpty
      · rw [if_pos ha] at hr
        cases hr
      · rw [if_neg ha] at hr
        rcases List.mem_singleton.mp hr with rfl
        exact Or.inl (List.mem_reverse.mp hcr)
  | cons x t ih =>
      intro acc r hr c hcr
      unfold splitWsAux at hr
      by_cases hx : jsSpace x
      · rw [if_pos hx] at hr
        by_cases ha : acc.isEmpty
        · rw [if_pos ha] at hr
          rcases ih [] r hr c hcr with h | h
          · cases h
          · exact Or.inr (List.mem_cons_of_mem _ h)
        · rw [if_neg ha] at hr
          rcases List.mem_cons.mp hr with rfl | hr'
          · exact Or.inl (List.mem_reverse.mp hcr)
          · rcases ih [] r hr' c hcr with h | h
            · cases h
            · exact Or.inr (List.mem_cons_of_mem _ h)
      · rw [if_neg hx] at hr
        rcases ih (x :: acc) r hr c hcr with h | h
        · rcases List.mem_cons.mp h with rfl | h'
          · exact Or.inr (List.mem_cons_self _ _)
          · exact Or.inl h'
        · exact Or.inr (List.mem_cons_of_mem _ h)

/-! ### Summary unfolding -/

lemma summary_eq_some {cs : List String} (h : cs ≠ []) :
    summary cs = some
      { totalComments := cs.length
        positive := (sentimentTally cs).1
        negative := (sentimentTally cs).2.1
        neutral := (sentimentTally cs).2.2
        overallSentiment :=
          overallOf (sentimentTally cs).1 (sentimentTally cs).2.1 (sentimentTally cs).2.2
        keyThemes := collectTags themeRules cs
        mainConcerns := collectTags concernRules cs
        suggestions := collectTags suggestionRules cs } := by
  unfold summary
  rw [if_neg (by simpa [List.isEmpty_iff] using h)]

lemma summary_of_some {cs : List String} {s : CorpusSummary}
    (h : summary cs = some s) :
    cs ≠ [] ∧
    s = { totalComments := cs.length
          positive := (sentimentTally cs).1
          negative := (sentimentTally cs).2.1
          neutral := (sentimentTally cs).2.2
          overallSentiment :=
            overallOf (sentimentTally cs).1 (sentimentTally cs).2.1 (sentimentTally cs).2.2
          keyThemes := collectTags themeRules cs
          mainConcerns := collectTags concernRules cs
          suggestions := collectTags suggestionRules cs } := by
  have hne : cs ≠ [] := by
    intro hnil
    subst hnil
    simp [summary] at h
  refine ⟨hne, ?_⟩
  rw [summary_eq_some hne] at h
  exact (Option.some_injective _ h).symm

/-! ### Claim theorems -/

/-- C8: for the empty input `[]` the classification list is empty, the
word-frequency list is empty and the corpus summary is absent (`none`); all
three components are total and raise no error. -/
theorem c8_empty_input (rand : ℕ → ℚ) :
    sentimentResults rand [] = [] ∧ wordFrequencies [] = [] ∧ summary [] = none :=
  ⟨rfl, rfl, rfl⟩

/-- C9: the word-frequency ranking is deterministic — two runs on the same
unchanged comment sequence yield identical ranked lists, with the same
words, frequencies, order and display sizes. -/
theorem c9_deterministic (cs cs' : List String) (h : cs = cs') :
    wordFrequencies cs = wordFrequencies cs' ∧
    (wordFrequencies cs).map WordFrequency.word
      = (wordFrequencies cs').map WordFrequency.word ∧
    (wordFrequencies cs).map WordFrequency.frequency
      = (wordFrequencies cs').map WordFrequency.frequency ∧
    (wordFrequencies cs).map WordFrequency.size
      = (wordFrequencies cs').map WordFrequency.size := by
  subst h
  exact ⟨rfl, rfl, rfl, rfl⟩

theorem c9_deterministic_witness :
    wordFrequencies ["transparency"] = wordFrequencies ["transparency"] :=
  (c9_deterministic ["transparency"] ["transparency"] rfl).1

/-- C4: the stance classifier labels a comment `agreement` with confidence
`min(0.95, 0.6 + 0.1 × agreement-count)` when the agreement keyword count
strictly exceeds the removal keyword count, `removal` symmetrically, and on
any tie (including 0/0) `modification` with confidence in `[0.7, 0.9)`,
each keyword counting once by presence as a case-insensitive substring. -/
theorem c4_classifier_contract (c : String) (r : ℚ) (h0 : 0 ≤ r) (h1 : r < 1) :
    (negativeMatches c < positiveMatches c →
      (classify r c).sentiment = Stance.agreement ∧
      (classify r c).confidence = min 0.95 (0.6 + 0.1 * (positiveMatches c : ℚ))) ∧
    (positiveMatches c < negativeMatches c →
      (classify r c).sentiment = Stance.removal ∧
      (classify r c).confidence = min 0.95 (0.6 + 0.1 * (negativeMatches c : ℚ))) ∧
    (positiveMatches c = negativeMatches c →
      (classify r c).sentiment = Stance.modification ∧
      0.7 ≤ (classify r c).confidence ∧ (classify r c).confidence < 0.9) := by
  refine ⟨?_, ?_, ?_⟩
  · intro h
    rw [classify_agreement h]
    refine ⟨rfl, ?_⟩
    show jsMin 0.95 (0.6 + (positiveMatches c : ℚ) * 0.1)
        = min 0.95 (0.6 + 0.1 * (positiveMatches c : ℚ))
    rw [jsMin_eq_min, mul_comm]
  · intro h
    rw [classify_removal h]
    refine ⟨rfl, ?_⟩
    show jsMin 0.95 (0.6 + (negativeMatches c : ℚ) * 0.1)
        = min 0.95 (0.6 + 0.1 * (negativeMatches c : ℚ))
    rw [jsMin_eq_min, mul_comm]
  · intro h
    rw [classify_modification h]
    refine ⟨rfl, ?_, ?_⟩
    · show (0.7 : ℚ) ≤ 0.7 + r * 0.2
      nlinarith
    · show (0.7 : ℚ) + r * 0.2 < 0.9
      nlinarith

theorem c4_classifier_contract_witness :
    (0 : ℚ) ≤ 0 ∧ (0 : ℚ) < 1 ∧ positiveMatches "" = negativeMatches "" ∧
    (classify 0 "").sentiment = Stance.modification ∧
    0.7 ≤ (classify 0 "").confidence ∧ (classify 0 "").confidence < 0.9 := by
  refine ⟨le_refl 0, by norm_num, by decide, ?_⟩
  exact (c4_classifier_contract "" 0 (le_refl 0) (by norm_num)).2.2 (by decide)

/-- C2 counterexample: digits are NOT destroyed at the replacement step.
On the corpus `["abc1def"]` the source replaces only characters outside
`[A-Za-z0-9_\s]`, so the digit survives and the single candidate token is
`"abc1def"`, whereas the claim's letters-or-whitespace replacement would
produce the candidate tokens `["abc", "def"]`. -/
theorem c2_counterexample :
    candidateWords ["abc1def"] = ["abc1def"] ∧
    specLetterCandidateWords ["abc1def"] = ["abc", "def"] ∧
    candidateWords ["abc1def"] ≠ specLetterCandidateWords ["abc1def"] :=
  ⟨by decide, by decide, by decide⟩

/-- C2 (amended): after lowercasing, every character that is neither a word
character (letter, digit or underscore) nor whitespace is replaced by a
single space before splitting on whitespace; hence every candidate token is
a nonempty run of word characters — punctuation is destroyed at the
replacement step, while digits and underscores survive it and are only
eliminated by the later `isMeaningfulWord` filter. -/
theorem c2_amended_candidate_tokens (cs : List String) (w : String)
    (hw : w ∈ candidateWords cs) :
    w.data ≠ [] ∧ ∀ c ∈ w.data, isWordChar c = true := by
  unfold candidateWords at hw
  rcases List.mem_map.mp hw with ⟨r, hr, rfl⟩
  have hsp := splitWs_mem hr
  refine ⟨?_, ?_⟩
  · intro h
    exact hsp.1 (by simpa using h)
  · intro c hc
    have hcr : c ∈ r := by simpa using hc
    have hns := hsp.2 c hcr
    have hchars := splitWsAux_chars (replaceNonWordChars (allText cs).data) [] r hr c hcr
    rcases hchars with h | h
    · cases h
    · exact replaceNonWordChars_mem h hns

theorem c2_amended_witness :
    ("abc1def" ∈ candidateWords ["abc1def"]) ∧ "abc1def".data ≠ [] := by
  have hm : "abc1def" ∈ candidateWords ["abc1def"] := by decide
  exact ⟨hm, (c2_amended_candidate_tokens ["abc1def"] "abc1def" hm).1⟩

/-- C3: on the uniform one-token corpus `["transparency"]` the retained
frequencies are all equal, the source divides `0 / 0 = NaN`, and the
returned display size is the `NaN` modelled by `none` — not the integer 12
in `[12, 36]` promised by the claim and by the source's own comment. -/
theorem c3_uniform_corpus_nan :
    wordFrequencies ["transparency"] = [⟨"transparency", 1, none⟩] ∧
    maxFreq ["transparency"] = minFreq ["transparency"] ∧
    ¬ sizeInRange (sizeOfFreq (minFreq ["transparency"]) (maxFreq ["transparency"]) 1) := by
  refine ⟨by decide, by decide, ?_⟩
  have h : maxFreq ["transparency"] = minFreq ["transparency"] := by decide
  rw [sizeOfFreq_of_eq h]
  simp [sizeInRange]

/-- C1 counterexample: at the spec's own three-comment scenario the second
comment's confidence is 0.9 — it matches the three removal keywords
`poor`, `harm` (inside "harmful") and `drive away` — not approximately 0.8;
and the themes set is not empty: `timeline` in the third comment triggers
the `Implementation Concerns` theme rule. -/
theorem c1_counterexample :
    (classify 0 "This is a poor and harmful proposal that will drive away businesses.").confidence
      = 0.9 ∧
    (summary scenarioComments).map CorpusSummary.keyThemes
      = some ["Implementation Concerns"] := by
  constructor
  · have h : positiveMatches
        "This is a poor and harmful proposal that will drive away businesses."
        < negativeMatches
        "This is a poor and harmful proposal that will drive away businesses." := by decide
    have hn : negativeMatches
        "This is a poor and harmful proposal that will drive away businesses." = 3 := by decide
    rw [classify_removal h]
    show jsMin 0.95 (0.6 + ((negativeMatches
        "This is a poor and harmful proposal that will drive away businesses." : ℕ) : ℚ) * 0.1)
      = 0.9
    rw [hn]
    norm_num [jsMin]
  · decide

/-- C1 (amended): on the scenario input the stance list is
`[agreement, removal, modification]` with confidences 0.8 and 0.9 for the
first two comments, the summary's themes set is exactly
`{Implementation Concerns}`, and its suggestions set contains both
`Implement changes in phases` and
`Provide clearer implementation guidelines`. -/
theorem c1_amended (rand : ℕ → ℚ) :
    ((sentimentResults rand scenarioComments).map fun x => x.sentiment)
      = [Stance.agreement, Stance.removal, Stance.modification] ∧
    (((sentimentResults rand scenarioComments).map fun x => x.confidence).take 2
      = [0.8, 0.9]) ∧
    summary scenarioComments = some scenarioSummary ∧
    scenarioSummary.keyThemes = ["Implementation Concerns"] ∧
    "Implement changes in phases" ∈ scenarioSummary.suggestions ∧
    "Provide clearer implementation guidelines" ∈ scenarioSummary.suggestions := by
  have h1 : negativeMatches "I strongly support this excellent amendment."
      < positiveMatches "I strongly support this excellent amendment." := by decide
  have h2 : positiveMatches
      "This is a poor and harmful proposal that will drive away businesses."
      < negativeMatches
      "This is a poor and harmful proposal that will drive away businesses." := by decide
  have h3 : positiveMatches "Please consider a phased rollout and clarify the timeline."
      = negativeMatches "Please consider a phased rollout and clarify the timeline." := by
    decide
  have hp1 : positiveMatches "I strongly support this excellent amendment." = 2 := by decide
  have hn2 : negativeMatches
      "This is a poor and harmful proposal that will drive away businesses." = 3 := by decide
  have hres : sentimentResults rand scenarioComments
      = [classify (rand 0) "I strongly support this excellent amendment.",
         classify (rand 1)
           "This is a poor and harmful proposal that will drive away businesses.",
         classify (rand 2)
           "Please consider a phased rollout and clarify the timeline."] := rfl
  refine ⟨?_, ?_, by decide, by decide, by decide, by decide⟩
  · rw [hres, classify_agreement h1, classify_removal h2, classify_modification h3]
    rfl
  · rw [hres, classify_agreement h1, classify_removal h2, classify_modification h3]
    show [jsMin 0.95 (0.6 + ((positiveMatches
          "I strongly support this excellent amendment." : ℕ) : ℚ) * 0.1),
        jsMin 0.95 (0.6 + ((negativeMatches
          "This is a poor and harmful proposal that will drive away businesses." : ℕ) : ℚ)
          * 0.1)]
      = [0.8, 0.9]
    rw [hp1, hn2]
    norm_num [jsMin]

/-- C6: the summarizer counts a comment positive exactly when a
positive-signal keyword is present and no negative-signal keyword is,
negative in the reverse case, neutral otherwise; and `overallSentiment` is
positive exactly when the positive count strictly exceeds both others,
negative exactly when the negative count strictly exceeds both others, and
mixed in every remaining case. -/
theorem c6_summarizer_counting (cs : List String) (s : CorpusSummary)
    (h : summary cs = some s) :
    s.positive = (cs.filter fun c => hasPositive c && !hasNegative c).length ∧
    s.negative = (cs.filter fun c => hasNegative c && !hasPositive c).length ∧
    s.neutral = (cs.filter fun c =>
      !(hasPositive c && !hasNegative c) && !(hasNegative c && !hasPositive c)).length ∧
    (s.overallSentiment = Overall.positive ↔ s.negative < s.positive ∧ s.neutral < s.positive) ∧
    (s.overallSentiment = Overall.negative ↔ s.positive < s.negative ∧ s.neutral < s.negative) ∧
    (s.overallSentiment = Overall.mixed ↔
      ¬(s.negative < s.positive ∧ s.neutral < s.positive) ∧
      ¬(s.positive < s.negative ∧ s.neutral < s.negative)) := by
  obtain ⟨hne, rfl⟩ := summary_of_some h
  refine ⟨?_, ?_, ?_, ?_, ?_, ?_⟩
  · show (sentimentTally cs).1 = _
    rw [sentimentTally_eq_filter]
  · show (sentimentTally cs).2.1 = _
    rw [sentimentTally_eq_filter]
  · show (sentimentTally cs).2.2 = _
    rw [sentimentTally_eq_filter]
  · exact overallOf_positive_iff _ _ _
  · exact overallOf_negative_iff _ _ _
  · exact overallOf_mixed_iff _ _ _

theorem c6_summarizer_counting_witness :
    summary scenarioComments = some scenarioSummary ∧
    scenarioSummary.positive
      = (scenarioComments.filter fun c => hasPositive c && !hasNegative c).length := by
  have hs : summary scenarioComments = some scenarioSummary := by decide
  exact ⟨hs, (c6_summarizer_counting scenarioComments scenarioSummary hs).1⟩

/-- C10: whenever the summarizer produces a summary (i.e. on every
non-empty comment sequence), the positive, negative and neutral counts sum
exactly to `totalComments`, which equals the input length — every comment
lands in exactly one bucket. -/
theorem c10_tally_partition (cs : List String) (s : CorpusSummary)
    (h : summary cs = some s) :
    s.positive + s.negative + s.neutral = s.totalComments ∧
    s.totalComments = cs.length := by
  obtain ⟨hne, rfl⟩ := summary_of_some h
  refine ⟨?_, rfl⟩
  show (sentimentTally cs).1 + (sentimentTally cs).2.1 + (sentimentTally cs).2.2 = cs.length
  exact sentimentTally_sum cs

theorem c10_tally_partition_witness :
    summary scenarioComments = some scenarioSummary ∧
    scenarioSummary.positive + scenarioSummary.negative + scenarioSummary.neutral
      = scenarioSummary.totalComments := by
  have hs : summary scenarioComments = some scenarioSummary := by decide
  exact ⟨hs, (c10_tally_partition scenarioComments scenarioSummary hs).1⟩

/-! ### Shape of the ranked list (C5) -/

lemma wordFrequencies_eq (cs : List String) :
    wordFrequencies cs = (sortedWords cs).map fun p =>
      ⟨p.1, p.2, sizeOfFreq (minFreq cs) (maxFreq cs) p.2⟩ := by
  unfold wordFrequencies
  by_cases h : cs.isEmpty
  · rw [if_pos h]
    have hcs : cs = [] := List.isEmpty_iff.mp h
    subst hcs
    rfl
  · rw [if_neg h]

lemma wordFrequencies_mem {cs : List String} {e : WordFrequency}
    (he : e ∈ wordFrequencies cs) :
    ∃ p ∈ sortedWords cs, e = ⟨p.1, p.2, sizeOfFreq (minFreq cs) (maxFreq cs) p.2⟩ := by
  rw [wordFrequencies_eq] at he
  rcases List.mem_map.mp he with ⟨p, hp, rfl⟩
  exact ⟨p, hp, rfl⟩

/-- C5 counterexample: on `["transparency compliance"]` both retained
tokens have frequency 1, so the ranking is not STRICTLY descending (and,
the retained frequencies being uniform, both display sizes are the `NaN`
modelled by `none`, outside `[12, 36]`). -/
theorem c5_counterexample :
    wordFrequencies ["transparency compliance"]
      = [⟨"transparency", 1, none⟩, ⟨"compliance", 1, none⟩] ∧
    ¬ List.Chain' (fun a b => WordFrequency.frequency b < WordFrequency.frequency a)
        (wordFrequencies ["transparency compliance"]) := by
  have he : wordFrequencies ["transparency compliance"]
      = [⟨"transparency", 1, none⟩, ⟨"compliance", 1, none⟩] := by decide
  refine ⟨he, ?_⟩
  rw [he]
  simp [List.chain'_cons]

/-- C5 (amended): for every corpus the ranking has length at most 50 and is
non-increasing by frequency (ties are possible and keep first-encounter
order); the display sizes follow the frequency order non-increasingly; and
whenever the retained maximum and minimum frequencies differ every display
size is an integer in `[12, 36]`, while when they coincide every display
size is the `NaN` of the unguarded `0/0` (cf. C3). -/
theorem c5_ranking_shape (cs : List String) :
    (wordFrequencies cs).length ≤ 50 ∧
    List.Sorted (fun a b => WordFrequency.frequency b ≤ WordFrequency.frequency a)
      (wordFrequencies cs) ∧
    List.Sorted (fun a b => sizeLe b.size a.size) (wordFrequencies cs) ∧
    (maxFreq cs ≠ minFreq cs → ∀ e ∈ wordFrequencies cs, sizeInRange e.size) ∧
    (maxFreq cs = minFreq cs → ∀ e ∈ wordFrequencies cs, e.size = none) := by
  refine ⟨?_, ?_, ?_, ?_, ?_⟩
  · rw [wordFrequencies_eq, List.length_map]
    exact List.length_take_le _ _
  · rw [wordFrequencies_eq]
    exact List.Pairwise.map _ (fun a b hab => hab) (sortedWords_sorted cs)
  · rw [wordFrequencies_eq]
    have hps : List.Pairwise (fun p q : String × ℕ =>
        sizeLe (sizeOfFreq (minFreq cs) (maxFreq cs) q.2)
          (sizeOfFreq (minFreq cs) (maxFreq cs) p.2)) (sortedWords cs) := by
      refine List.Pairwise.imp_of_mem ?_ (sortedWords_sorted cs)
      intro p q hp hq hpq
      by_cases hne : maxFreq cs = minFreq cs
      · rw [sizeOfFreq_of_eq hne, sizeOfFreq_of_eq hne]
        trivial
      · have hminq := minFreq_le hq
        have hmaxq := le_maxFreq hq
        have hlt : minFreq cs < maxFreq cs :=
          lt_of_le_of_ne (le_trans hminq hmaxq) (Ne.symm hne)
        exact sizeOfFreq_mono hlt hpq
    exact List.Pairwise.map _ (fun a b hab => hab) hps
  · intro hne e he
    rcases wordFrequencies_mem he with ⟨p, hp, rfl⟩
    exact sizeOfFreq_inRange hne (minFreq_le hp) (le_maxFreq hp)
  · intro heq e he
    rcases wordFrequencies_mem he with ⟨p, hp, rfl⟩
    show sizeOfFreq (minFreq cs) (maxFreq cs) p.2 = none
    exact sizeOfFreq_of_eq heq

lemma sortedWords_zaa : sortedWords ["zaa zaa zab"] = [("zaa", 2), ("zab", 1)] := by decide

lemma wordFrequencies_zaa :
    wordFrequencies ["zaa zaa zab"]
      = [⟨"zaa", 2, some 36⟩, ⟨"zab", 1, some 12⟩] := by
  have hmin : minFreq ["zaa zaa zab"] = 1 := by decide
  have hmax : maxFreq ["zaa zaa zab"] = 2 := by decide
  have h36 : sizeOfFreq 1 2 2 = some 36 := by
    rw [sizeOfFreq_of_ne (by norm_num)]
    norm_num
  have h12 : sizeOfFreq 1 2 1 = some 12 := by
    rw [sizeOfFreq_of_ne (by norm_num)]
    norm_num
  rw [wordFrequencies_eq, sortedWords_zaa, hmin, hmax]
  simp only [List.map_cons, List.map_nil]
  rw [h36, h12]

theorem c5_ranking_shape_witness :
    (wordFrequencies ["zaa zaa zab"]).length ≤ 50 ∧
    maxFreq ["zaa zaa zab"] ≠ minFreq ["zaa zaa zab"] ∧
    ((⟨"zaa", 2, some 36⟩ : WordFrequency) ∈ wordFrequencies ["zaa zaa zab"]) ∧
    sizeInRange (WordFrequency.size ⟨"zaa", 2, some 36⟩) := by
  have hne : maxFreq ["zaa zaa zab"] ≠ minFreq ["zaa zaa zab"] := by decide
  have hmem : (⟨"zaa", 2, some 36⟩ : WordFrequency) ∈ wordFrequencies ["zaa zaa zab"] := by
    rw [wordFrequencies_zaa]
    exact List.mem_cons_self _ _
  exact ⟨(c5_ranking_shape ["zaa zaa zab"]).1, hne, hmem,
    (c5_ranking_shape ["zaa zaa zab"]).2.2.2.1 hne _ hmem⟩

/-! ### Truncation round-trip (C7) -/

lemma minFreq_eq_getLast {cs : List String} (hne : sortedWords cs ≠ []) :
    minFreq cs = ((sortedWords cs).getLast hne).2 := by
  have hpos : 0 < ((sortedWords cs).getLast hne).2 :=
    sortedWords_pos (List.getLast_mem hne)
  unfold minFreq
  rw [List.getLast?_eq_getLast _ hne]
  simp [orOne, Nat.pos_iff_ne_zero.mp hpos]

/-- C7 (amended): every ranked word is a token whose frequency is its token
count and is at least the 50th-ranked (last retained) frequency; every
token whose frequency STRICTLY exceeds that frequency appears in the
ranking; and when at most 50 distinct tokens exist the ranking carries
every token.  (Tokens tied exactly at the boundary frequency may be
truncated away, which is what refutes the claimed set equality.) -/
theorem c7_truncation (cs : List String) :
    (∀ e ∈ wordFrequencies cs,
      e.word ∈ words cs ∧ e.frequency = tokenFreq cs e.word ∧ minFreq cs ≤ e.frequency) ∧
    (∀ t ∈ words cs, minFreq cs < tokenFreq cs t →
      t ∈ (wordFrequencies cs).map WordFrequency.word) ∧
    ((wordCount (words cs)).length ≤ 50 →
      ∀ t ∈ words cs, t ∈ (wordFrequencies cs).map WordFrequency.word) := by
  refine ⟨?_, ?_, ?_⟩
  · intro e he
    rcases wordFrequencies_mem he with ⟨p, hp, rfl⟩
    have hwc := sortedWords_mem_wordCount hp
    have hchar := (wordCount_mem_iff (words cs) p.1 p.2).mp (by
      have : (p.1, p.2) = p := Prod.mk.eta
      rw [this]
      exact hwc)
    exact ⟨hchar.1, hchar.2, minFreq_le hp⟩
  · intro t ht hlt
    have hpmem : (t, (words cs).count t) ∈ wordCount (words cs) :=
      (wordCount_mem_iff (words cs) t _).mpr ⟨ht, rfl⟩
    have hsortmem : (t, (words cs).count t)
        ∈ List.insertionSort freqGe (wordCount (words cs)) :=
      (List.mem_insertionSort freqGe).mpr hpmem
    by_cases htake : (t, (words cs).count t) ∈ sortedWords cs
    · rw [wordFrequencies_eq, List.map_map]
      exact List.mem_map.mpr ⟨(t, (words cs).count t), htake, rfl⟩
    · exfalso
      have hdrop : (t, (words cs).count t)
          ∈ (List.insertionSort freqGe (wordCount (words cs))).drop 50 := by
        have hsplit := List.take_append_drop 50
          (List.insertionSort freqGe (wordCount (words cs)))
        rcases List.mem_append.mp (by rw [hsplit]; exact hsortmem) with h | h
        · exact absurd h htake
        · exact h
      have hne : sortedWords cs ≠ [] := by
        intro hnil
        have : List.insertionSort freqGe (wordCount (words cs)) = [] := by
          rcases List.take_eq_nil_iff.mp hnil with h | h
          · omega
          · exact h
        rw [this] at hsortmem
        cases hsortmem
      have hlastmem : (sortedWords cs).getLast hne ∈ sortedWords cs :=
        List.getLast_mem hne
      have hrel : freqGe ((sortedWords cs).getLast hne) (t, (words cs).count t) :=
        List.Sorted.rel_of_mem_take_of_mem_drop
          (List.sorted_insertionSort freqGe (wordCount (words cs))) hlastmem hdrop
      have : (words cs).count t ≤ minFreq cs := by
        rw [minFreq_eq_getLast hne]
        exact hrel
      have htf : tokenFreq cs t = (words cs).count t := rfl
      omega
  · intro hlen t ht
    have hpmem : (t, (words cs).count t) ∈ wordCount (words cs) :=
      (wordCount_mem_iff (words cs) t _).mpr ⟨ht, rfl⟩
    have hsortmem : (t, (words cs).count t)
        ∈ List.insertionSort freqGe (wordCount (words cs)) :=
      (List.mem_insertionSort freqGe).mpr hpmem
    have htake : (t, (words cs).count t) ∈ sortedWords cs := by
      unfold sortedWords
      rw [List.take_of_length_le (by rw [List.length_insertionSort]; exact hlen)]
      exact hsortmem
    rw [wordFrequencies_eq, List.map_map]
    exact List.mem_map.mpr ⟨(t, (words cs).count t), htake, rfl⟩

theorem c7_truncation_witness :
    ("zaa" ∈ words ["zaa zaa zab"]) ∧
    minFreq ["zaa zaa zab"] < tokenFreq ["zaa zaa zab"] "zaa" ∧
    "zaa" ∈ (wordFrequencies ["zaa zaa zab"]).map WordFrequency.word := by
  have h1 : "zaa" ∈ words ["zaa zaa zab"] := by decide
  have h2 : minFreq ["zaa zaa zab"] < tokenFreq ["zaa zaa zab"] "zaa" := by decide
  exact ⟨h1, h2, (c7_truncation ["zaa zaa zab"]).2.1 "zaa" h1 h2⟩

set_option maxRecDepth 8000 in
/-- C7 counterexample: the corpus `fiftyOneTokens` has 51 distinct retained
tokens, all of frequency 1.  The 50th-ranked frequency is 1 and `"zby"` is
a token of frequency ≥ 1, yet `"zby"` is not among the 50 returned words —
the boundary tie is truncated — so the returned word set does not equal the
set of tokens with frequency ≥ the 50th-ranked frequency. -/
theorem c7_counterexample :
    ("zby" ∈ words fiftyOneTokens) ∧
    minFreq fiftyOneTokens ≤ tokenFreq fiftyOneTokens "zby" ∧
    (wordFrequencies fiftyOneTokens).length = 50 ∧
    "zby" ∉ (wordFrequencies fiftyOneTokens).map WordFrequency.word := by
  refine ⟨by decide, by decide, by decide, by decide⟩
